import Mathlib

/-!
# iptb: range selector, concurrent dispatcher, reporter and lifecycle ladder

A shallow embedding of `commands/utils.go` (`parseRange`, `expandDashRange`,
`mapWithOutput`, `validRange`, `buildReport`) and of the `Stop` / `Connect`
methods of `plugins/ipfs/browser/browseripfs.go`.

Conventions of the embedding:
* a Go `string` is a `List Char` (the code only inspects ASCII bytes);
* a Go `int` is an `Int` inside `[minInt, maxInt]` (64-bit), with explicit
  wrap-around where the code increments;
* a Go `error` that may be `nil` is an `Option`;
* a loop that may fail to terminate takes a fuel argument and returns `none`
  when the fuel runs out.
-/

set_option autoImplicit false

deriving instance DecidableEq for Except

namespace Iptb

/-! ## Go library functions used by the selector -/

/-- Largest value of a 64-bit Go `int`. -/
def maxInt : Int := 2 ^ 63 - 1

/-- Smallest value of a 64-bit Go `int`. -/
def minInt : Int := -(2 ^ 63)

/-- Largest value of a Go `uint64`. -/
def maxUint64 : Nat := 2 ^ 64 - 1

/-- Two-complement wrap-around of a 64-bit signed integer. -/
def wrapInt (x : Int) : Int := (x + 2 ^ 63) % 2 ^ 64 - 2 ^ 63

/-- The two error kinds of `strconv.NumError`. -/
inductive NumError where
  | ErrSyntax
  | ErrRange
  deriving DecidableEq, Repr

/-- Value of a decimal digit byte, `none` for any other byte. -/
def digitVal (c : Char) : Option Nat :=
  if 48 ≤ c.toNat ∧ c.toNat ≤ 57 then some (c.toNat - 48) else none

/-- Digit loop of `strconv.ParseUint(s, 10, 64)`: bytes are consumed left to
right, a byte that is not a decimal digit is a syntax error, an accumulated
value above `maxUint64` is a range error. -/
def parseUintLoop : List Char → Nat → Except NumError Nat
  | [], n => .ok n
  | c :: cs, n =>
    match digitVal c with
    | none => .error .ErrSyntax
    | some d =>
      if n * 10 + d > maxUint64 then .error .ErrRange
      else parseUintLoop cs (n * 10 + d)

/-- Go `strconv.Atoi` (standard library) on a 64-bit platform: an optional
sign, then at least one decimal digit, and the value has to fit a 64-bit `int`;
otherwise a syntax or range error. -/
def Atoi (s : List Char) : Except NumError Int :=
  match s with
  | [] => .error .ErrSyntax
  | c :: cs =>
    let neg := decide (c = '-')
    let body := if c = '-' ∨ c = '+' then cs else s
    match body with
    | [] => .error .ErrSyntax
    | _ :: _ =>
      match parseUintLoop body 0 with
      | .error e => .error e
      | .ok un =>
        if neg then
          if un > 2 ^ 63 then .error .ErrRange else .ok (-(un : Int))
        else
          if un ≥ 2 ^ 63 then .error .ErrRange else .ok (un : Int)

/-- Go `strings.Split(s, sep)` for a one-byte separator, the only form the
selector uses: the pieces of `s` between the occurrences of `sep`. -/
def Split (s : List Char) (sep : Char) : List (List Char) :=
  match s with
  | [] => [[]]
  | c :: cs =>
    if c = sep then [] :: Split cs sep
    else
      match Split cs sep with
      | [] => [[c]]
      | p :: ps => (c :: p) :: ps

/-- Go `strings.HasPrefix`. -/
def HasPrefix (s pre : List Char) : Bool := s.take pre.length == pre

/-- Go `strings.HasSuffix`. -/
def HasSuffix (s suf : List Char) : Bool :=
  decide (suf.length ≤ s.length) && s.drop (s.length - suf.length) == suf

/-! ## Range selector (`commands/utils.go`) -/

/-- The loop `for i := low; i <= hi; i++ { out = append(out, i) }` of
`expandDashRange`; `i++` wraps around at `maxInt`. -/
def expandLoop : Nat → Int → Int → List Int → Option (List Int)
  | 0, _, _, _ => none
  | fuel + 1, i, hi, out =>
    if i ≤ hi then expandLoop fuel (wrapInt (i + 1)) hi (out ++ [i])
    else some out

/-- Embedding of `expandDashRange`. The outer `Option` is `none` when the loop
has not finished within `fuel` iterations. -/
def expandDashRange (fuel : Nat) (s : List Char) : Option (Except NumError (List Int)) :=
  let parts := Split s '-'
  if parts.length = 1 then
    match Atoi s with
    | .error e => some (.error e)
    | .ok i => some (.ok [i])
  else
    match Atoi (parts.getD 0 []) with
    | .error e => some (.error e)
    | .ok low =>
      match Atoi (parts.getD 1 []) with
      | .error e => some (.error e)
      | .ok hi =>
        match expandLoop fuel low hi [] with
        | none => none
        | some out => some (.ok out)

/-- The loop `for _, r := range ranges` of `parseRange`. -/
def parseRangeLoop (fuel : Nat) : List (List Char) → List Int → Option (Except NumError (List Int))
  | [], out => some (.ok out)
  | r :: rs, out =>
    match expandDashRange fuel r with
    | none => none
    | some (.error e) => some (.error e)
    | some (.ok rng) => parseRangeLoop fuel rs (out ++ rng)

/-- Embedding of `parseRange`. `s[1:len(s)-1]` is `(s.take (len - 1)).drop 1`;
it cannot be out of bounds, since a string that starts with `[` and ends with
`]` has at least two bytes. -/
def parseRange (fuel : Nat) (s : List Char) : Option (Except NumError (List Int)) :=
  if HasPrefix s ['['] && HasSuffix s [']'] then
    let ranges := Split ((s.take (s.length - 1)).drop 1) ','
    parseRangeLoop fuel ranges []
  else
    match Atoi s with
    | .error e => some (.error e)
    | .ok i => some (.ok [i])

/-! ## Concurrent dispatcher and reporter (`commands/utils.go`) -/

/-- The part of the `testbedi.Output` interface that the reporter reads. -/
structure Output where
  ExitCode : Int
  Error : Option String
  Stdout : String
  Stderr : String
  deriving DecidableEq, Repr

/-- Embedding of `type Result struct`; a nil `Output` or `Error` is `none`, and
an error is represented by its text. -/
structure Result where
  Node : Int
  Output : Option Output
  Error : Option String
  deriving DecidableEq, Repr

/-- Zero value of `Result`, the content of every slot after `make`. -/
def Result.zero : Result := { Node := 0, Output := none, Error := none }

/-- Embedding of `type outputFunc`: the operation returns an output (possibly
nil) and an error (possibly nil). -/
abbrev outputFunc (Core : Type) := Core → Option Output × Option String

/-- The call `errors.Wrapf(err, "node[%d]", n)`: nil for a nil `err`, otherwise
the text of `err` behind the node label. -/
def Wrapf (err : Option String) (n : Int) : Option String :=
  err.map fun e => "node[" ++ toString n ++ "]: " ++ e

/-- The loop of `validRange` that computes `max`, started from `max`. -/
def validRangeMax : List Int → Int → Int
  | [], max => max
  | n :: ns, max => validRangeMax ns (if max < n then n else max)

/-- Embedding of `validRange`: `none` is the nil error. -/
def validRange (list : List Int) (total : Int) : Option String :=
  let max := validRangeMax list 0
  if max ≥ total then
    some ("Node range contains value (" ++ toString max ++ ") outside of valid range [0-"
      ++ toString (total - 1) ++ "]")
  else none

/-- Go slice indexing `nodes[n]`: `none` stands for the index-out-of-range
runtime panic. -/
def index {α : Type} (nodes : List α) (n : Int) : Option α :=
  if 0 ≤ n then nodes.get? n.toNat else none

/-- Arguments `(i, n, nodes[n])` of one `go func(i, n int, node testbedi.Core)`
statement. -/
structure Goroutine (Core : Type) where
  i : Nat
  n : Int
  node : Core

/-- The spawning loop `for i, n := range list` of `mapWithOutput`, from
position `i` on: the arguments of each goroutine are evaluated by the caller,
so `nodes[n]` out of range panics (`none`). -/
def spawn {Core : Type} (nodes : List Core) : List Int → Nat → Option (List (Goroutine Core))
  | [], _ => some []
  | n :: ns, i =>
    match index nodes n with
    | none => none
    | some node =>
      match spawn nodes ns (i + 1) with
      | none => none
      | some us => some ({ i := i, n := n, node := node } :: us)

/-- What `mapWithOutput` hands back, together with the log of the nodes `fn`
was invoked on (in the order of the invocations). -/
structure MapReturn (Core : Type) where
  results : List Result
  err : Option String
  calls : List Core

/-- Body of one goroutine: invoke `fn` on the node, then store the `Result` in
slot `i` under the lock. -/
def runUnit {Core : Type} (fn : outputFunc Core) (st : List Result × List Core)
    (u : Goroutine Core) : List Result × List Core :=
  let r := fn u.node
  (st.1.set u.i { Node := u.n, Output := r.1, Error := Wrapf r.2 u.n }, st.2 ++ [u.node])

/-- The goroutines run in the order given by `sched` (a list of positions of
the selection); a position that names no goroutine is skipped. -/
def runSchedule {Core : Type} (fn : outputFunc Core) (units : List (Goroutine Core)) :
    List Nat → List Result × List Core → List Result × List Core
  | [], st => st
  | p :: ps, st =>
    match units.get? p with
    | none => runSchedule fn units ps st
    | some u => runSchedule fn units ps (runUnit fn st u)

/-- Embedding of `mapWithOutput`. `sched` is the order in which the scheduler
lets the goroutines run; `wg.Wait()` returns once every goroutine has run, so
the meaningful schedules are the permutations of the positions of `list`.
`none` stands for a runtime panic. -/
def mapWithOutput {Core : Type} (list : List Int) (nodes : List Core) (fn : outputFunc Core)
    (sched : List Nat) : Option (MapReturn Core) :=
  let results := List.replicate list.length Result.zero
  match validRange list nodes.length with
  | some err => some { results := results, err := some err, calls := [] }
  | none =>
    match spawn nodes list 0 with
    | none => none
    | some units =>
      let st := runSchedule fn units sched (results, [])
      some { results := st.1, err := none, calls := st.2 }

/-- Embedding of `cli.MultiError`, as made by `cli.NewMultiError(errs...)`. -/
structure MultiError where
  Errors : List String
  deriving DecidableEq, Repr

/-- Embedding of `cli.NewMultiError`. -/
def NewMultiError (errs : List String) : MultiError := { Errors := errs }

/-- What one iteration of the loop of `buildReport` writes to standard
output for a `Result` with a non-nil `Output`. -/
def printOutput (node : Int) (o : Output) : List String :=
  ["node[" ++ toString node ++ "] exit " ++ toString o.ExitCode ++ "\n"]
    ++ (match o.Error with
        | some e => [e]
        | none => [])
    ++ ["\n", o.Stdout, o.Stderr, "\n"]

/-- The loop `for _, rs := range results` of `buildReport`, threading `errs`
and the text written to standard output. -/
def buildReportLoop : List Result → List String → List String → List String × List String
  | [], errs, out => (errs, out)
  | rs :: rest, errs, out =>
    let errs1 := match rs.Error with
      | some e => errs ++ [e]
      | none => errs
    let out1 := match rs.Output with
      | some o => out ++ printOutput rs.Node o
      | none => out
    buildReportLoop rest errs1 out1

/-- Effects of one call of `buildReport`: the returned error, the text written
to standard output and the content of the `results` slice afterwards. -/
structure Report where
  err : Option MultiError
  stdout : List String
  results : List Result

/-- Embedding of `buildReport`; the function has no assignment to `results`. -/
def buildReport (results : List Result) : Report :=
  let r := buildReportLoop results [] []
  { err := if r.1.length ≠ 0 then some (NewMultiError r.1) else none
    stdout := r.2
    results := results }

/-! ## Lifecycle controller (`plugins/ipfs/browser/browseripfs.go`) -/

/-- The four signals of the shutdown ladder. -/
inductive Signal where
  | SIGINT
  | SIGTERM
  | SIGQUIT
  | SIGKILL
  deriving DecidableEq, Repr

/-- Result of the deferred `os.Remove` of the pid file. -/
inductive Removal where
  | removed
  | notExist
  | fails (msg : String)
  deriving DecidableEq, Repr

/-- An error returned by `signalAndWait`: the sentinel `errTimeout` or a
formatted error. -/
inductive WaitError where
  | errTimeout
  | other (msg : String)
  deriving DecidableEq, Repr

/-- What the call `p.Wait()` does in the goroutine that `Stop` starts: it blocks
until the process exits and then returns, or it returns an error at once (as
the operating system makes it do for a pid that is not a child of the caller). -/
inductive WaitResult where
  | untilExit
  | failsAtOnce (msg : String)
  deriving DecidableEq, Repr

/-- Environment of one call of `Stop`: the node directory, the results of
`getPID` and `os.FindProcess` (`none` is a nil error), what `p.Wait()` does, the
error of `p.Signal(signal)` (`none` when the signal is delivered), whether the
process exits during the `t` seconds that follow the delivery of a signal, and
the result of the deferred removal of the pid file. -/
structure StopEnv where
  dir : String
  getPID : Except String Int
  FindProcess : Int → Option String
  pWait : WaitResult
  pSignal : Signal → Option String
  exitsWithin : Signal → Nat → Bool
  remove : Removal

/-- The goroutine `go func() { p.Wait(); waitch <- struct{}{} }()` of `Stop`:
the result of `p.Wait()` is discarded and a value is put on `waitch` as soon as
`p.Wait()` returns, for whatever reason. `waitch env signal t` tells whether a
value is on the channel by the end of the wait of `t` seconds that follows
`signal`. -/
def waitch (env : StopEnv) (signal : Signal) (t : Nat) : Bool :=
  match env.pWait with
  | .failsAtOnce _ => true
  | .untilExit => env.exitsWithin signal t

/-- Embedding of `signalAndWait(p, waitch, signal, t)`: `none` is the nil error.
The `select` receives from `waitch` or runs into the timer. -/
def signalAndWait (env : StopEnv) (waitch : Signal → Nat → Bool) (signal : Signal) (t : Nat) :
    Option WaitError :=
  match env.pSignal signal with
  | some msg => some (.other ("error killing daemon " ++ env.dir ++ ": " ++ msg))
  | none => if waitch signal t then none else some .errTimeout

/-- How a call of `Stop` ends: it returns an error (or nil), or it panics. -/
inductive Ending where
  | returns (err : Option String)
  | panics (msg : String)
  deriving DecidableEq, Repr

/-- Outcome of `Stop`: how it ends and the calls `signalAndWait(p, waitch,
signal, t)` it made, in order, each as the signal and the wait `t` in seconds. -/
structure StopResult where
  ending : Ending
  sent : List (Signal × Nat)
  deriving DecidableEq, Repr

/-- The value a rung of `Stop` returns when `signalAndWait` gave something
other than `errTimeout`. -/
def WaitError.text : WaitError → String
  | .errTimeout => "timeout"
  | .other msg => msg

/-- The four `if err := l.signalAndWait(...); err != errTimeout { return err }`
statements of `Stop` and its final `return`: the value returned and the
calls of `signalAndWait` made. -/
def stopLadder (env : StopEnv) (waitch : Signal → Nat → Bool) (pid : Int) :
    Option String × List (Signal × Nat) :=
  let e1 := signalAndWait env waitch .SIGINT 1
  if e1 ≠ some .errTimeout then (e1.map WaitError.text, [(.SIGINT, 1)])
  else
    let e2 := signalAndWait env waitch .SIGTERM 2
    if e2 ≠ some .errTimeout then (e2.map WaitError.text, [(.SIGINT, 1), (.SIGTERM, 2)])
    else
      let e3 := signalAndWait env waitch .SIGQUIT 5
      if e3 ≠ some .errTimeout then
        (e3.map WaitError.text, [(.SIGINT, 1), (.SIGTERM, 2), (.SIGQUIT, 5)])
      else
        let e4 := signalAndWait env waitch .SIGKILL 5
        if e4 ≠ some .errTimeout then
          (e4.map WaitError.text, [(.SIGINT, 1), (.SIGTERM, 2), (.SIGQUIT, 5), (.SIGKILL, 5)])
        else
          (some ("Could not stop browseripfs node with pid " ++ toString pid),
            [(.SIGINT, 1), (.SIGTERM, 2), (.SIGQUIT, 5), (.SIGKILL, 5)])

/-- The signals of `Stop` and the wait after each, in program order. -/
def rungs : List (Signal × Nat) :=
  [(.SIGINT, 1), (.SIGTERM, 2), (.SIGQUIT, 5), (.SIGKILL, 5)]

/-- The deferred function of `Stop`: it removes the pid file and panics on any
failure other than the file not existing; otherwise `Stop` returns `ret`. -/
def deferred (env : StopEnv) (ret : Option String) : Ending :=
  match env.remove with
  | .fails msg => .panics ("error removing pid file for daemon at " ++ env.dir ++ ": " ++ msg)
  | .removed => .returns ret
  | .notExist => .returns ret

/-- Embedding of `BrowserIpfs.Stop`: read the pid, resolve the process, start
the goroutine that fills `waitch`, register the deferred removal, then climb the
ladder. -/
def Stop (env : StopEnv) : StopResult :=
  match env.getPID with
  | .error e =>
    { ending := .returns (some ("error killing daemon " ++ env.dir ++ ": " ++ e)), sent := [] }
  | .ok pid =>
    match env.FindProcess pid with
    | some e =>
      { ending := .returns (some ("error killing daemon " ++ env.dir ++ ": " ++ e)), sent := [] }
    | none =>
      let r := stopLadder env (waitch env) pid
      { ending := deferred env r.1, sent := r.2 }

/-- The signal is delivered and the process exits during the wait that
follows. -/
def exitsOn (env : StopEnv) (signal : Signal) (t : Nat) : Bool :=
  env.pSignal signal == none && env.exitsWithin signal t

/-- The signal is delivered and the process is still running when the wait
that follows is over. -/
def survives (env : StopEnv) (signal : Signal) (t : Nat) : Bool :=
  env.pSignal signal == none && !env.exitsWithin signal t

/-- Environment of one call of `Connect`: the result of `tbn.SwarmAddrs()` and
of `l.RunCmd(ctx, nil, args...)` for each argument list. -/
structure ConnectEnv where
  SwarmAddrs : Except String (List String)
  RunCmd : List String → Except String Output

/-- The loop `for _, addr := range swarmaddrs` of `Connect`: the returned error
and the addresses tried. -/
def connectLoop (env : ConnectEnv) : List String → Option String × List String
  | [] => (some "Could not connect using any address", [])
  | addr :: rest =>
    match env.RunCmd ["ipfs", "swarm", "connect", addr] with
    | .error e => (some e, [addr])
    | .ok output =>
      if output.ExitCode = 0 then (none, [addr])
      else
        let r := connectLoop env rest
        (r.1, addr :: r.2)

/-- Embedding of `BrowserIpfs.Connect`: the returned error (`none` is nil) and
the addresses a connect command was run for, in order. -/
def Connect (env : ConnectEnv) : Option String × List String :=
  match env.SwarmAddrs with
  | .error e => (some e, [])
  | .ok swarmaddrs => connectLoop env swarmaddrs

/-- Joining pieces with a one-byte separator, as `strings.Join` does. -/
def joinWith (sep : Char) : List (List Char) → List Char
  | [] => []
  | [l] => l
  | l :: l2 :: ls => l ++ sep :: joinWith sep (l2 :: ls)

/-! ## Selection expressions as the grammar writes them -/

/-- A term of a bracketed selection expression: a bare non-negative integer or
a dash-range `lo-hi`. -/
inductive Term where
  | single (n : Nat)
  | dash (lo hi : Nat)
  deriving DecidableEq, Repr

/-- The text of a term, numbers in decimal. -/
def Term.text : Term → List Char
  | .single n => Nat.toDigits 10 n
  | .dash lo hi => Nat.toDigits 10 lo ++ '-' :: Nat.toDigits 10 hi

/-- The indices a term stands for: `[n]`, or `lo, lo+1, ..., hi` ascending and
inclusive. -/
def Term.expansion : Term → List Int
  | .single n => [(n : Int)]
  | .dash lo hi => (List.range' lo (hi + 1 - lo)).map Int.ofNat

/-- The term is in the range the code handles: a bare integer fits a 64-bit
`int`, a dash-range is ascending and ends below `maxInt`. -/
def Term.fits : Term → Bool
  | .single n => decide (n < 2 ^ 63)
  | .dash lo hi => decide (lo ≤ hi) && decide (hi < 2 ^ 63 - 1)

/-- Number of iterations of the expansion loop that a term needs. -/
def Term.steps : Term → Nat
  | .single _ => 0
  | .dash lo hi => hi + 1 - lo

/-- The bracketed selection expression `[t1,...,tk]`. -/
def bracketed (ts : List Term) : List Char :=
  '[' :: (joinWith ',' (ts.map Term.text) ++ [']'])

/-! ## Example environments -/

/-- A child process of the caller that ignores SIGINT and SIGTERM and exits on
SIGQUIT. -/
def quitOnly : StopEnv :=
  { dir := "node0"
    getPID := .ok 42
    FindProcess := fun _ => none
    pWait := .untilExit
    pSignal := fun _ => none
    exitsWithin := fun sig _ => decide (sig = .SIGQUIT)
    remove := .removed }

/-- A child process that exits on SIGINT while its pid file cannot be
removed. -/
def stuckPidFile : StopEnv :=
  { dir := "node0"
    getPID := .ok 42
    FindProcess := fun _ => none
    pWait := .untilExit
    pSignal := fun _ => none
    exitsWithin := fun _ _ => true
    remove := .fails "permission denied" }

/-- The process of `quitOnly` when it is not a child of the caller, as for a
pid read back from `daemon.pid` by a later run: `p.Wait()` fails at once. -/
def notChild : StopEnv :=
  { dir := "node0"
    getPID := .ok 42
    FindProcess := fun _ => none
    pWait := .failsAtOnce "wait: no child processes"
    pSignal := fun _ => none
    exitsWithin := fun sig _ => decide (sig = .SIGQUIT)
    remove := .removed }

/-- An output of which only the exit code matters. -/
def exitWith (code : Int) : Output :=
  { ExitCode := code, Error := none, Stdout := "", Stderr := "" }

/-- A peer advertising `[A, B]`: the connect command exits with 1 on `A` and
with 0 on `B`. -/
def secondAccepts : ConnectEnv :=
  { SwarmAddrs := .ok ["A", "B"]
    RunCmd := fun args =>
      if args = ["ipfs", "swarm", "connect", "B"] then .ok (exitWith 0) else .ok (exitWith 1) }

/-- A peer advertising `[A]` while the `ipfs` command cannot be started. -/
def cannotRun : ConnectEnv :=
  { SwarmAddrs := .ok ["A"]
    RunCmd := fun _ => .error "exec: \"ipfs\": executable file not found in $PATH" }

/-- An operation that fails on node `a` and succeeds elsewhere. -/
def failOnA : outputFunc String := fun node =>
  (some { ExitCode := 0, Error := none, Stdout := node, Stderr := "" },
    if node = "a" then some "boom" else none)

/-- The connect command for `addr` ran and exited with a non-zero code. -/
def refused (env : ConnectEnv) (addr : String) : Bool :=
  match env.RunCmd ["ipfs", "swarm", "connect", addr] with
  | .ok o => decide (o.ExitCode ≠ 0)
  | .error _ => false

/-- The `Result` a goroutine stores. -/
def unitResult {Core : Type} (fn : outputFunc Core) (u : Goroutine Core) : Result :=
  { Node := u.n, Output := (fn u.node).1, Error := Wrapf (fn u.node).2 u.n }

/-! ## Facts about the library functions -/

theorem digitVal_digitChar (d : Nat) (h : d < 10) : digitVal (Nat.digitChar d) = some d := by
  interval_cases d <;> rfl

/-- Reading back the digits that `Nat.toDigitsCore` puts in front of `acc`. -/
theorem parseUintLoop_toDigitsCore (fuel : Nat) :
    ∀ (n : Nat) (acc rest : List Char), n < fuel → n ≤ maxUint64 →
      parseUintLoop (Nat.toDigitsCore 10 fuel n acc ++ rest) 0 = parseUintLoop (acc ++ rest) n := by
  induction fuel with
  | zero => intro n _ _ h; omega
  | succ fuel ih =>
    intro n acc rest hf hn
    have hd : digitVal (Nat.digitChar (n % 10)) = some (n % 10) :=
      digitVal_digitChar _ (Nat.mod_lt _ (by decide))
    by_cases h0 : n / 10 = 0
    · have hlt : n < 10 := by omega
      have hmod : n % 10 = n := Nat.mod_eq_of_lt hlt
      rw [hmod] at hd
      have hle : ¬ (n > maxUint64) := by omega
      simp only [Nat.toDigitsCore, h0, if_true, List.cons_append, parseUintLoop, hd, hmod,
        Nat.zero_mul, Nat.zero_add, hle, if_false]
    · simp only [Nat.toDigitsCore, h0, if_false]
      rw [ih (n / 10) _ rest (by omega) (by omega)]
      simp only [List.cons_append, parseUintLoop, hd]
      have e : n / 10 * 10 + n % 10 = n := by omega
      have hle : ¬ (n > maxUint64) := by omega
      simp only [e, hle, if_false, List.append_eq]

/-- Every character produced by `Nat.toDigitsCore` is a decimal digit. -/
theorem digitVal_toDigitsCore (fuel : Nat) :
    ∀ (n : Nat) (acc : List Char) (c : Char), c ∈ Nat.toDigitsCore 10 fuel n acc →
      c ∈ acc ∨ (digitVal c).isSome := by
  induction fuel with
  | zero => intro n acc c h; left; simpa [Nat.toDigitsCore] using h
  | succ fuel ih =>
    intro n acc c h
    have hd : (digitVal (Nat.digitChar (n % 10))).isSome := by
      rw [digitVal_digitChar _ (Nat.mod_lt _ (by decide))]; rfl
    by_cases h0 : n / 10 = 0
    · simp only [Nat.toDigitsCore, h0, if_true, List.mem_cons] at h
      rcases h with h | h
      · right; rw [h]; exact hd
      · left; exact h
    · simp only [Nat.toDigitsCore, h0, if_false] at h
      rcases ih _ _ c h with h | h
      · rcases List.mem_cons.mp h with h | h
        · right; rw [h]; exact hd
        · left; exact h
      · right; exact h

theorem digitVal_toDigits (n : Nat) (c : Char) (h : c ∈ Nat.toDigits 10 n) :
    (digitVal c).isSome := by
  rcases digitVal_toDigitsCore _ _ _ _ h with h | h
  · simp at h
  · exact h

theorem toDigitsCore_ne_nil (fuel n : Nat) (acc : List Char) (h : 0 < fuel) :
    Nat.toDigitsCore 10 fuel n acc ≠ [] := by
  induction fuel generalizing n acc with
  | zero => omega
  | succ fuel ih =>
    by_cases h0 : n / 10 = 0
    · simp [Nat.toDigitsCore, h0]
    · simp only [Nat.toDigitsCore, h0, if_false]
      have : n ≠ 0 := by intro h; simp [h] at h0
      cases fuel with
      | zero => simp [Nat.toDigitsCore]
      | succ f => exact ih _ _ (by omega)

theorem toDigits_ne_nil (n : Nat) : Nat.toDigits 10 n ≠ [] :=
  toDigitsCore_ne_nil _ _ _ (by omega)

theorem parseUintLoop_toDigits (n : Nat) (hn : n ≤ maxUint64) :
    parseUintLoop (Nat.toDigits 10 n) 0 = .ok n := by
  have h := parseUintLoop_toDigitsCore (n + 1) n [] [] (by omega) hn
  simpa [Nat.toDigits, parseUintLoop] using h

/-- Go `strconv.Atoi` reads back the decimal rendering of every `n < 2^63`. -/
theorem Atoi_toDigits (n : Nat) (hn : n < 2 ^ 63) : Atoi (Nat.toDigits 10 n) = .ok (n : Int) := by
  have hp := parseUintLoop_toDigits n (by unfold maxUint64; omega)
  have hne := toDigits_ne_nil n
  have hdig := digitVal_toDigits n
  cases hs : Nat.toDigits 10 n with
  | nil => exact absurd hs hne
  | cons c cs =>
    rw [hs] at hp hdig
    have hc : (digitVal c).isSome := hdig c (List.mem_cons_self _ _)
    have h1 : c ≠ '-' := by intro e; rw [e] at hc; exact absurd hc (by decide)
    have h2 : c ≠ '+' := by intro e; rw [e] at hc; exact absurd hc (by decide)
    have h3 : ¬ (n ≥ 2 ^ 63) := by omega
    simp only [Atoi, h1, h2, hp, h3, or_self, if_false, decide_False, Bool.false_eq_true]

theorem Split_cons (c : Char) (cs : List Char) (sep : Char) :
    Split (c :: cs) sep =
      if c = sep then [] :: Split cs sep
      else
        match Split cs sep with
        | [] => [[c]]
        | p :: ps => (c :: p) :: ps := by
  rw [Split]

theorem Split_ne_nil (s : List Char) (sep : Char) : Split s sep ≠ [] := by
  cases s with
  | nil => simp [Split]
  | cons c cs =>
    unfold Split
    split
    · simp
    · split <;> simp

theorem Split_of_not_mem (sep : Char) : ∀ s : List Char, sep ∉ s → Split s sep = [s]
  | [], _ => by simp [Split]
  | c :: cs, h => by
    have hc : c ≠ sep := fun e => h (by simp [e])
    have hcs : sep ∉ cs := fun e => h (List.mem_cons_of_mem _ e)
    rw [Split_cons, if_neg hc, Split_of_not_mem sep cs hcs]

theorem Split_append_sep (sep : Char) (b : List Char) :
    ∀ a : List Char, sep ∉ a → Split (a ++ sep :: b) sep = a :: Split b sep
  | [], _ => by
    show Split (sep :: b) sep = _
    rw [Split_cons, if_pos rfl]
  | c :: cs, h => by
    have hc : c ≠ sep := fun e => h (by simp [e])
    have hcs : sep ∉ cs := fun e => h (List.mem_cons_of_mem _ e)
    show Split (c :: (cs ++ sep :: b)) sep = _
    rw [Split_cons, if_neg hc, Split_append_sep sep b cs hcs]

theorem Split_joinWith (sep : Char) :
    ∀ ls : List (List Char), ls ≠ [] → (∀ l ∈ ls, sep ∉ l) → Split (joinWith sep ls) sep = ls
  | [], h, _ => absurd rfl h
  | [l], _, h => by
    simpa [joinWith] using Split_of_not_mem sep l (h l (by simp))
  | l :: l2 :: ls, _, h => by
    have h1 : sep ∉ l := h l (by simp)
    have h2 : ∀ x ∈ l2 :: ls, sep ∉ x := fun x hx => h x (List.mem_cons_of_mem _ hx)
    show Split (l ++ sep :: joinWith sep (l2 :: ls)) sep = _
    rw [Split_append_sep sep _ l h1, Split_joinWith sep (l2 :: ls) (by simp) h2]

theorem wrapInt_eq (x : Int) (h1 : minInt ≤ x) (h2 : x ≤ maxInt) : wrapInt x = x := by
  unfold wrapInt
  unfold minInt at h1
  unfold maxInt at h2
  norm_num at h1 h2 ⊢
  omega

/-- With enough fuel the loop of `expandDashRange` appends `lo, lo+1, ...` up
to `hi`, as long as `hi` is below `maxInt`. -/
theorem expandLoop_range (k : Nat) :
    ∀ (lo : Nat) (hi : Int) (out : List Int) (fuel : Nat),
      (lo : Int) + k = hi + 1 → hi < maxInt → k < fuel →
      expandLoop fuel lo hi out = some (out ++ (List.range' lo k).map Int.ofNat) := by
  induction k with
  | zero =>
    intro lo hi out fuel h _ hf
    cases fuel with
    | zero => omega
    | succ f =>
      have : ¬ ((lo : Int) ≤ hi) := by omega
      simp [expandLoop, this]
  | succ k ih =>
    intro lo hi out fuel h hhi hf
    cases fuel with
    | zero => omega
    | succ f =>
      have hle : (lo : Int) ≤ hi := by omega
      have hw : wrapInt ((lo : Int) + 1) = ((lo + 1 : Nat) : Int) := by
        rw [wrapInt_eq]
        · push_cast; rfl
        · unfold minInt; norm_num; omega
        · omega
      simp only [expandLoop, hle, if_true, hw]
      rw [ih (lo + 1) hi _ f (by push_cast; omega) hhi (by omega)]
      simp [List.range'_succ]

theorem expandLoop_mono (fuel : Nat) :
    ∀ (i hi : Int) (out r : List Int) (fuel2 : Nat), fuel ≤ fuel2 →
      expandLoop fuel i hi out = some r → expandLoop fuel2 i hi out = some r := by
  induction fuel with
  | zero => intro i hi out r f2 _ h; simp [expandLoop] at h
  | succ f ih =>
    intro i hi out r f2 hle h
    cases f2 with
    | zero => omega
    | succ g =>
      unfold expandLoop at h ⊢
      by_cases hc : i ≤ hi
      · rw [if_pos hc] at h ⊢
        exact ih _ _ _ _ g (by omega) h
      · rw [if_neg hc] at h ⊢
        exact h

theorem expandDashRange_mono (fuel fuel2 : Nat) (s : List Char)
    (r : Except NumError (List Int)) (hle : fuel ≤ fuel2)
    (h : expandDashRange fuel s = some r) : expandDashRange fuel2 s = some r := by
  unfold expandDashRange at h ⊢
  simp only at h ⊢
  split
  · rename_i hp
    rw [if_pos hp] at h
    exact h
  · rename_i hp
    rw [if_neg hp] at h
    cases h0 : Atoi ((Split s '-').getD 0 []) with
    | error e => rw [h0] at h; exact h
    | ok low =>
      rw [h0] at h
      simp only at h ⊢
      cases h1 : Atoi ((Split s '-').getD 1 []) with
      | error e => rw [h1] at h; exact h
      | ok hi =>
        rw [h1] at h
        simp only at h ⊢
        cases h2 : expandLoop fuel low hi [] with
        | none => rw [h2] at h; simp at h
        | some out =>
          rw [h2] at h
          rw [expandLoop_mono fuel low hi [] out fuel2 hle h2]
          exact h

theorem parseRangeLoop_mono (fuel fuel2 : Nat) (hle : fuel ≤ fuel2) :
    ∀ (rs : List (List Char)) (out : List Int) (r : Except NumError (List Int)),
      parseRangeLoop fuel rs out = some r → parseRangeLoop fuel2 rs out = some r
  | [], out, r, h => by simpa [parseRangeLoop] using h
  | x :: rs, out, r, h => by
    unfold parseRangeLoop at h ⊢
    cases hx : expandDashRange fuel x with
    | none => rw [hx] at h; simp at h
    | some v =>
      rw [hx] at h
      rw [expandDashRange_mono fuel fuel2 x v hle hx]
      cases v with
      | error e => exact h
      | ok rng => exact parseRangeLoop_mono fuel fuel2 hle rs _ r h

/-- A result of `parseRange` does not change when more fuel is given. -/
theorem parseRange_mono (fuel fuel2 : Nat) (s : List Char) (r : Except NumError (List Int))
    (hle : fuel ≤ fuel2) (h : parseRange fuel s = some r) : parseRange fuel2 s = some r := by
  unfold parseRange at h ⊢
  split
  · rename_i hp
    rw [if_pos hp] at h
    exact parseRangeLoop_mono fuel fuel2 hle _ _ r h
  · rename_i hp
    rw [if_neg hp] at h
    exact h

/-! ## Facts about the range selector -/

theorem not_mem_toDigits (n : Nat) (c : Char) (hc : digitVal c = none) :
    c ∉ Nat.toDigits 10 n := by
  intro h
  have := digitVal_toDigits n c h
  rw [hc] at this
  exact absurd this (by decide)

theorem not_mem_text (t : Term) : ',' ∉ t.text := by
  cases t with
  | single n => exact not_mem_toDigits n ',' (by decide)
  | dash lo hi =>
    simp only [Term.text, List.mem_append, List.mem_cons, not_or]
    exact ⟨not_mem_toDigits lo ',' (by decide), by decide, not_mem_toDigits hi ',' (by decide)⟩

/-- On the text of a term in range, `expandDashRange` returns its expansion. -/
theorem expandDashRange_text (t : Term) (fuel : Nat) (hfit : t.fits = true)
    (hfuel : t.steps < fuel) : expandDashRange fuel t.text = some (.ok t.expansion) := by
  cases t with
  | single n =>
    simp only [Term.fits, decide_eq_true_eq] at hfit
    have hs := Split_of_not_mem '-' _ (not_mem_toDigits n '-' (by decide))
    simp only [expandDashRange, Term.text, hs, List.length_singleton, if_true,
      Atoi_toDigits n hfit, Term.expansion]
  | dash lo hi =>
    simp only [Term.fits, Bool.and_eq_true, decide_eq_true_eq] at hfit
    obtain ⟨hle, hhi⟩ := hfit
    simp only [Term.steps] at hfuel
    have hs : Split (Nat.toDigits 10 lo ++ '-' :: Nat.toDigits 10 hi) '-'
        = [Nat.toDigits 10 lo, Nat.toDigits 10 hi] := by
      rw [Split_append_sep '-' _ _ (not_mem_toDigits lo '-' (by decide)),
        Split_of_not_mem '-' _ (not_mem_toDigits hi '-' (by decide))]
    have h1 := Atoi_toDigits lo (by omega)
    have h2 := Atoi_toDigits hi (by omega)
    have h3 := expandLoop_range (hi + 1 - lo) lo (hi : Int) [] fuel (by omega)
      (by unfold maxInt; norm_num; omega) hfuel
    simp only [expandDashRange, Term.text, hs, List.length_cons, List.length_nil,
      List.getD_cons_zero, List.getD_cons_succ, h1, h2, h3, Term.expansion, List.nil_append]
    simp

theorem parseRangeLoop_text (fuel : Nat) :
    ∀ (ts : List Term) (out : List Int),
      (∀ t ∈ ts, t.fits = true) → (∀ t ∈ ts, t.steps < fuel) →
      parseRangeLoop fuel (ts.map Term.text) out = some (.ok (out ++ ts.flatMap Term.expansion))
  | [], out, _, _ => by simp [parseRangeLoop]
  | t :: ts, out, hfit, hfuel => by
    have h1 := expandDashRange_text t fuel (hfit t (by simp)) (hfuel t (by simp))
    have h2 := parseRangeLoop_text fuel ts (out ++ t.expansion)
      (fun x hx => hfit x (List.mem_cons_of_mem _ hx))
      (fun x hx => hfuel x (List.mem_cons_of_mem _ hx))
    simp only [List.map_cons, parseRangeLoop, h1, h2, List.flatMap_cons, List.append_assoc]

theorem parseRange_bracket (fuel : Nat) (m : List Char) :
    parseRange fuel ('[' :: (m ++ [']'])) = parseRangeLoop fuel (Split m ',') [] := by
  have hp : HasPrefix ('[' :: (m ++ [']'])) ['['] = true := by
    simp [HasPrefix]
  have hsuf : HasSuffix ('[' :: (m ++ [']'])) [']'] = true := by
    have e : ('[' :: (m ++ [']'])) = ('[' :: m) ++ [']'] := rfl
    rw [e]
    simp [HasSuffix]
  have hmid : (List.take (('[' :: (m ++ [']'])).length - 1) ('[' :: (m ++ [']']))).drop 1 = m := by
    have e : ('[' :: (m ++ [']'])) = ('[' :: m) ++ [']'] := rfl
    rw [e]
    simp
  unfold parseRange
  rw [hp, hsuf]
  simp only [Bool.and_self, if_true]
  rw [hmid]

/-- A result that `parseRange` gives without any fuel is its result for every
amount of fuel. -/
theorem parseRange_of_zero (s : List Char) (r : Except NumError (List Int))
    (h : parseRange 0 s = some r) (fuel : Nat) : parseRange fuel s = some r :=
  parseRange_mono 0 fuel s r (Nat.zero_le _) h

theorem expandDashRange_of_zero (s : List Char) (r : Except NumError (List Int))
    (h : expandDashRange 0 s = some r) (fuel : Nat) : expandDashRange fuel s = some r :=
  expandDashRange_mono 0 fuel s r (Nat.zero_le _) h

/-! ## Claims about the range selector -/

/-- C4 (amended): for every non-empty list of terms, each a bare decimal
integer below `2^63` or a dash-range `lo-hi` with `lo ≤ hi < 2^63 - 1`,
`parseRange` on `[t1,...,tk]` succeeds (given fuel for the longest range) and
returns the concatenation of the expansions of the terms in the order written,
without sorting or de-duplicating; and `parseRange` on a bare decimal integer
`n < 2^63` returns `[n]`. -/
theorem parseRange_terms (ts : List Term) (n fuel : Nat) (hne : ts ≠ [])
    (hfit : ∀ t ∈ ts, t.fits = true) (hfuel : ∀ t ∈ ts, t.steps < fuel) (hn : n < 2 ^ 63) :
    parseRange fuel (bracketed ts) = some (.ok (ts.flatMap Term.expansion))
      ∧ parseRange fuel (Nat.toDigits 10 n) = some (.ok [(n : Int)]) := by
  constructor
  · unfold bracketed
    rw [parseRange_bracket, Split_joinWith ',' _ (by simpa using hne)]
    · simpa using parseRangeLoop_text fuel ts [] hfit hfuel
    · intro l hl
      obtain ⟨t, _, rfl⟩ := List.mem_map.mp hl
      exact not_mem_text t
  · have hdig := digitVal_toDigits n
    have hne2 := toDigits_ne_nil n
    have hA := Atoi_toDigits n hn
    cases hs : Nat.toDigits 10 n with
    | nil => exact absurd hs hne2
    | cons c cs =>
      rw [hs] at hdig hA
      have hc : (digitVal c).isSome := hdig c (List.mem_cons_self _ _)
      have h1 : c ≠ '[' := by intro e; rw [e] at hc; exact absurd hc (by decide)
      have hp : HasPrefix (c :: cs) ['['] = false := by
        simp [HasPrefix, h1]
      simp only [parseRange, hp, Bool.false_and, hA]
      simp

/-- C4 witness: `"[0-2,4]"` gives `[0,1,2,4]` and `"3"` gives `[3]`. -/
theorem parseRange_terms_witness :
    parseRange 4 "[0-2,4]".toList = some (.ok [0, 1, 2, 4])
      ∧ parseRange 4 "3".toList = some (.ok [3]) :=
  parseRange_terms [.dash 0 2, .single 4] 3 4 (by decide) (by decide) (by decide) (by decide)

/-- C4 counterexample: the bare integer `2^63` is a decimal non-negative
integer, yet `parseRange` rejects `"[9223372036854775808]"` and
`"9223372036854775808"` with a range error. -/
theorem parseRange_terms_counterexample :
    bracketed [.single (2 ^ 63)] = "[9223372036854775808]".toList
      ∧ (∀ fuel, parseRange fuel "[9223372036854775808]".toList = some (.error .ErrRange))
      ∧ (∀ fuel, parseRange fuel "9223372036854775808".toList = some (.error .ErrRange)) :=
  ⟨by decide, parseRange_of_zero _ _ (by decide), parseRange_of_zero _ _ (by decide)⟩

/-- C5 (amended): `parseRange("[2-2]")` returns `[2]`, while the unbracketed
`parseRange("2-2")` is a syntax error of `strconv.Atoi`. -/
theorem parseRange_two_two (fuel : Nat) (h : 2 ≤ fuel) :
    parseRange fuel "[2-2]".toList = some (.ok [2])
      ∧ parseRange fuel "2-2".toList = some (.error .ErrSyntax) :=
  ⟨parseRange_mono 2 fuel _ _ h (by decide), parseRange_of_zero _ _ (by decide) fuel⟩

/-- C5 witness: the amended statement with fuel 2. -/
theorem parseRange_two_two_witness :
    parseRange 2 "[2-2]".toList = some (.ok [2])
      ∧ parseRange 2 "2-2".toList = some (.error .ErrSyntax) :=
  parseRange_two_two 2 (by decide)

/-- C5 counterexample: with no amount of fuel does `parseRange("2-2")` return
`[2]`. -/
theorem parseRange_two_two_counterexample :
    ¬ ∃ fuel, parseRange fuel "2-2".toList = some (.ok [2]) := by
  rintro ⟨fuel, h⟩
  have e : parseRange fuel "2-2".toList = some (.error .ErrSyntax) :=
    parseRange_of_zero _ _ (by decide) fuel
  rw [e] at h
  exact absurd h (by decide)

/-- C6 (the code at the failing input): `"[1-2-x]"` contains the non-numeric
piece `x`, yet `parseRange` returns `[1, 2]` and no error, because
`expandDashRange` reads only the first two pieces of a dash-range. -/
theorem parseRange_ignores_third_piece (fuel : Nat) (h : 3 ≤ fuel) :
    parseRange fuel "[1-2-x]".toList = some (.ok [1, 2]) :=
  parseRange_mono 3 fuel _ _ h (by decide)

/-- C6 witness: the failing input with fuel 3. -/
theorem parseRange_ignores_third_piece_witness :
    parseRange 3 "[1-2-x]".toList = some (.ok [1, 2]) :=
  parseRange_ignores_third_piece 3 (by decide)

/-- C10 (amended): for all decimal non-negative integers `hi < lo < 2^63`,
`expandDashRange("lo-hi")` returns no error and an empty list;
`parseRange("[3-1]")` succeeds with an empty selection and
`parseRange("[3-1,5]")` returns `[5]`. -/
theorem expandDashRange_descending (lo hi fuel : Nat) (h : hi < lo) (hlo : lo < 2 ^ 63)
    (hf : 0 < fuel) :
    expandDashRange fuel (Term.text (.dash lo hi)) = some (.ok [])
      ∧ parseRange fuel "[3-1]".toList = some (.ok [])
      ∧ parseRange fuel "[3-1,5]".toList = some (.ok [5]) := by
  refine ⟨?_, parseRange_mono 1 fuel _ _ hf (by decide), parseRange_mono 1 fuel _ _ hf (by decide)⟩
  have hs : Split (Nat.toDigits 10 lo ++ '-' :: Nat.toDigits 10 hi) '-'
      = [Nat.toDigits 10 lo, Nat.toDigits 10 hi] := by
    rw [Split_append_sep '-' _ _ (not_mem_toDigits lo '-' (by decide)),
      Split_of_not_mem '-' _ (not_mem_toDigits hi '-' (by decide))]
  have h1 := Atoi_toDigits lo hlo
  have h2 := Atoi_toDigits hi (by omega)
  cases fuel with
  | zero => omega
  | succ f =>
    have hgt : ¬ ((lo : Int) ≤ (hi : Int)) := by omega
    simp only [expandDashRange, Term.text, hs, List.length_cons, List.length_nil,
      List.getD_cons_zero, List.getD_cons_succ, h1, h2, expandLoop, hgt, if_false]
    simp

/-- C10 witness: `"3-1"` expands to nothing. -/
theorem expandDashRange_descending_witness :
    expandDashRange 1 "3-1".toList = some (.ok [])
      ∧ parseRange 1 "[3-1]".toList = some (.ok [])
      ∧ parseRange 1 "[3-1,5]".toList = some (.ok [5]) :=
  expandDashRange_descending 3 1 1 (by decide) (by decide) (by decide)

/-- C10 counterexample: for the decimal integers `3 > -1` and `2^63 > 0`,
`expandDashRange` returns an error, not an empty list. -/
theorem expandDashRange_descending_counterexample :
    (∀ fuel, expandDashRange fuel "3--1".toList = some (.error .ErrSyntax))
      ∧ (∀ fuel, expandDashRange fuel "9223372036854775808-0".toList
          = some (.error .ErrRange)) :=
  ⟨expandDashRange_of_zero _ _ (by decide), expandDashRange_of_zero _ _ (by decide)⟩

/-! ## Claims about the reporter -/

theorem buildReportLoop_fst :
    ∀ (rs : List Result) (errs out : List String),
      (buildReportLoop rs errs out).1 = errs ++ rs.filterMap (fun r => r.Error)
  | [], errs, out => by simp [buildReportLoop]
  | r :: rs, errs, out => by
    rw [buildReportLoop, buildReportLoop_fst rs]
    cases h : r.Error <;> simp [List.filterMap_cons, h]

/-- C7: `buildReport` returns nil exactly when every `Result.Error` is nil; a
non-nil return is the multi-error of exactly the non-nil `Result.Error` values
in list order, whatever the `Output` of the results; the results are left as
they were. -/
theorem buildReport_spec (results : List Result) :
    ((buildReport results).err = none ↔ ∀ r ∈ results, r.Error = none)
      ∧ (∀ e, (buildReport results).err = some e →
          e = NewMultiError (results.filterMap fun r => r.Error))
      ∧ (buildReport results).results = results := by
  have hl := buildReportLoop_fst results [] []
  simp only [List.nil_append] at hl
  refine ⟨?_, ?_, rfl⟩
  · simp only [buildReport, hl, ne_eq, List.length_eq_zero, ite_not]
    constructor
    · intro h r hr
      by_cases he : List.filterMap (fun r => r.Error) results = []
      · cases hre : r.Error with
        | none => rfl
        | some x =>
          have : x ∈ List.filterMap (fun r => r.Error) results :=
            List.mem_filterMap.mpr ⟨r, hr, hre⟩
          rw [he] at this
          exact absurd this (List.not_mem_nil _)
      · rw [if_neg he] at h
        exact absurd h (by simp)
    · intro h
      have he : List.filterMap (fun r => r.Error) results = [] := by
        apply List.eq_nil_iff_forall_not_mem.mpr
        intro x hx
        obtain ⟨r, hr, hre⟩ := List.mem_filterMap.mp hx
        rw [h r hr] at hre
        exact Option.noConfusion hre
      rw [if_pos he]
  · intro e he
    simp only [buildReport, hl, ne_eq, List.length_eq_zero, ite_not] at he
    by_cases hn : List.filterMap (fun r => r.Error) results = []
    · rw [if_pos hn] at he
      exact Option.noConfusion he
    · rw [if_neg hn] at he
      exact (Option.some.inj he).symm

/-! ## Claims about the lifecycle controller -/

theorem signalAndWait_exitsOn (env : StopEnv) (signal : Signal) (t : Nat)
    (hw : env.pWait = .untilExit) (h : exitsOn env signal t = true) :
    signalAndWait env (waitch env) signal t = none := by
  simp only [exitsOn, Bool.and_eq_true, beq_iff_eq] at h
  simp [signalAndWait, waitch, hw, h.1, h.2]

theorem signalAndWait_survives (env : StopEnv) (signal : Signal) (t : Nat)
    (hw : env.pWait = .untilExit) (h : survives env signal t = true) :
    signalAndWait env (waitch env) signal t = some .errTimeout := by
  simp only [survives, Bool.and_eq_true, beq_iff_eq, Bool.not_eq_true'] at h
  simp [signalAndWait, waitch, hw, h.1, h.2]

/-- When `p.Wait()` fails at once, the first `select` of `Stop` receives from
`waitch`: `Stop` returns nil after SIGINT alone, whatever the process does. -/
theorem Stop_wait_fails (env : StopEnv) (pid : Int) (msg : String)
    (hpid : env.getPID = .ok pid) (hfind : env.FindProcess pid = none)
    (hw : env.pWait = .failsAtOnce msg) (hsig : env.pSignal .SIGINT = none)
    (hrm : ∀ m, env.remove ≠ .fails m) :
    Stop env = { ending := .returns none, sent := [(.SIGINT, 1)] } := by
  have hdef : ∀ ret, deferred env ret = .returns ret := by
    intro ret
    unfold deferred
    cases hr : env.remove with
    | removed => rfl
    | notExist => rfl
    | fails m => exact absurd hr (hrm m)
  simp [Stop, hpid, hfind, hdef, stopLadder, signalAndWait, waitch, hw, hsig]

/-- C8 (amended): once the pid is read and the process resolved, `Stop` sends
SIGINT, SIGTERM, SIGQUIT, SIGKILL in this order with waits of 1, 2, 5 and 5
seconds. Provided `p.Wait()` in the goroutine of `Stop` returns only when the
process exits, and the deferred removal of the pid file succeeds or finds no
file, it returns nil at the first rung whose wait observes the exit and sends
no later signal, and if all four waits time out it returns the error naming the
pid. When that removal fails otherwise, `Stop` panics instead of returning. -/
theorem Stop_ladder (env : StopEnv) (pid : Int) (hpid : env.getPID = .ok pid)
    (hfind : env.FindProcess pid = none) :
    (Stop env).sent <+: rungs
      ∧ (env.pWait = .untilExit → (∀ msg, env.remove ≠ .fails msg) →
          (exitsOn env .SIGINT 1 = true →
            Stop env = { ending := .returns none, sent := [(.SIGINT, 1)] })
          ∧ (survives env .SIGINT 1 = true → exitsOn env .SIGTERM 2 = true →
            Stop env = { ending := .returns none, sent := [(.SIGINT, 1), (.SIGTERM, 2)] })
          ∧ (survives env .SIGINT 1 = true → survives env .SIGTERM 2 = true →
            exitsOn env .SIGQUIT 5 = true →
            Stop env = { ending := .returns none
                         sent := [(.SIGINT, 1), (.SIGTERM, 2), (.SIGQUIT, 5)] })
          ∧ (survives env .SIGINT 1 = true → survives env .SIGTERM 2 = true →
            survives env .SIGQUIT 5 = true → exitsOn env .SIGKILL 5 = true →
            Stop env = { ending := .returns none, sent := rungs })
          ∧ (survives env .SIGINT 1 = true → survives env .SIGTERM 2 = true →
            survives env .SIGQUIT 5 = true → survives env .SIGKILL 5 = true →
            Stop env = { ending := .returns (some ("Could not stop browseripfs node with pid "
                                      ++ toString pid))
                         sent := rungs }))
      ∧ (∀ msg, env.remove = .fails msg →
          (Stop env).ending
            = .panics ("error removing pid file for daemon at " ++ env.dir ++ ": " ++ msg)) := by
  have hsent : (Stop env).sent = (stopLadder env (waitch env) pid).2 := by
    simp only [Stop, hpid, hfind]
  refine ⟨?_, ?_, ?_⟩
  · rw [hsent]
    unfold stopLadder
    simp only
    split
    · exact ⟨[(.SIGTERM, 2), (.SIGQUIT, 5), (.SIGKILL, 5)], rfl⟩
    · split
      · exact ⟨[(.SIGQUIT, 5), (.SIGKILL, 5)], rfl⟩
      · split
        · exact ⟨[(.SIGKILL, 5)], rfl⟩
        · split
          · exact ⟨[], rfl⟩
          · exact ⟨[], rfl⟩
  · intro hw hrm
    have hdef : ∀ ret, deferred env ret = .returns ret := by
      intro ret
      unfold deferred
      cases hr : env.remove with
      | removed => rfl
      | notExist => rfl
      | fails msg => exact absurd hr (hrm msg)
    have hstop : Stop env = { ending := .returns (stopLadder env (waitch env) pid).1,
                              sent := (stopLadder env (waitch env) pid).2 } := by
      simp only [Stop, hpid, hfind, hdef]
    refine ⟨?_, ?_, ?_, ?_, ?_⟩
    · intro h1
      rw [hstop]
      simp [stopLadder, signalAndWait_exitsOn env _ _ hw h1]
    · intro h1 h2
      rw [hstop]
      simp [stopLadder, signalAndWait_survives env _ _ hw h1, signalAndWait_exitsOn env _ _ hw h2]
    · intro h1 h2 h3
      rw [hstop]
      simp [stopLadder, signalAndWait_survives env _ _ hw h1,
        signalAndWait_survives env _ _ hw h2, signalAndWait_exitsOn env _ _ hw h3]
    · intro h1 h2 h3 h4
      rw [hstop]
      simp [stopLadder, signalAndWait_survives env _ _ hw h1,
        signalAndWait_survives env _ _ hw h2, signalAndWait_survives env _ _ hw h3,
        signalAndWait_exitsOn env _ _ hw h4, rungs]
    · intro h1 h2 h3 h4
      rw [hstop]
      simp [stopLadder, signalAndWait_survives env _ _ hw h1,
        signalAndWait_survives env _ _ hw h2, signalAndWait_survives env _ _ hw h3,
        signalAndWait_survives env _ _ hw h4, rungs]
  · intro msg hmsg
    simp only [Stop, hpid, hfind, deferred, hmsg]

/-- C8 witness: a child process that ignores SIGINT and SIGTERM and exits on
SIGQUIT is stopped without error after exactly SIGINT, SIGTERM, SIGQUIT. -/
theorem Stop_ladder_witness :
    Stop quitOnly = { ending := .returns none
                      sent := [(.SIGINT, 1), (.SIGTERM, 2), (.SIGQUIT, 5)] } :=
  ((Stop_ladder quitOnly 42 rfl rfl).2.1 rfl (fun _ h => Removal.noConfusion h)).2.2.1
    (by decide) (by decide) (by decide)

/-- C8 counterexample: (1) the wait after SIGINT observes the exit of a child
process, yet `Stop` does not end with success: the deferred removal of the pid
file fails and `Stop` panics; (2) a process that ignores SIGINT and SIGTERM and
exits on SIGQUIT, but is not a child of the caller, gets SIGINT alone and
`Stop` returns nil while the process is still running. -/
theorem Stop_ladder_counterexample :
    (exitsOn stuckPidFile .SIGINT 1 = true
      ∧ Stop stuckPidFile =
          { ending := .panics "error removing pid file for daemon at node0: permission denied"
            sent := [(.SIGINT, 1)] })
    ∧ (survives notChild .SIGINT 1 = true ∧ survives notChild .SIGTERM 2 = true
      ∧ exitsOn notChild .SIGQUIT 5 = true
      ∧ Stop notChild = { ending := .returns none, sent := [(.SIGINT, 1)] }) := by
  decide

theorem refused_run (env : ConnectEnv) (addr : String) (h : refused env addr = true) :
    ∃ o, env.RunCmd ["ipfs", "swarm", "connect", addr] = .ok o ∧ o.ExitCode ≠ 0 := by
  unfold refused at h
  cases hr : env.RunCmd ["ipfs", "swarm", "connect", addr] with
  | error e => rw [hr] at h; exact absurd h (by simp)
  | ok o =>
    rw [hr] at h
    exact ⟨o, rfl, by simpa using h⟩

theorem connectLoop_refused (env : ConnectEnv) (pre rest : List String)
    (h : ∀ x ∈ pre, refused env x = true) :
    connectLoop env (pre ++ rest) = ((connectLoop env rest).1, pre ++ (connectLoop env rest).2) := by
  induction pre with
  | nil => rfl
  | cons a pre ih =>
    obtain ⟨o, ho, hne⟩ := refused_run env a (h a (List.mem_cons_self _ _))
    have hrest := ih (fun x hx => h x (List.mem_cons_of_mem _ hx))
    show connectLoop env (a :: (pre ++ rest)) = _
    rw [connectLoop, ho]
    simp only [hne, if_false, hrest, List.cons_append]

theorem connectLoop_tried (env : ConnectEnv) :
    ∀ addrs : List String, (connectLoop env addrs).2 <+: addrs
  | [] => by simp [connectLoop]
  | a :: rest => by
    rw [connectLoop]
    cases env.RunCmd ["ipfs", "swarm", "connect", a] with
    | error e => exact ⟨rest, rfl⟩
    | ok o =>
      by_cases h0 : o.ExitCode = 0
      · simp only [h0, if_true]
        exact ⟨rest, rfl⟩
      · simp only [h0, if_false]
        exact (List.prefix_cons_inj a).mpr (connectLoop_tried env rest)

/-- C9 (amended): when the address list is retrieved, `Connect` runs the
connect command on the addresses in list order in one pass. It returns nil at
the first address whose command exits with code 0, provided the command ran and
exited non-zero on every earlier address, and tries no later address; it
returns the "Could not connect using any address" error when the command ran
and exited non-zero on every address (the empty list included); and when
`RunCmd` itself fails on an address reached, `Connect` returns that error at
once and tries no later address. -/
theorem Connect_first_success (env : ConnectEnv) (addrs : List String)
    (h : env.SwarmAddrs = .ok addrs) :
    (Connect env).2 <+: addrs
      ∧ (∀ pre a post o, addrs = pre ++ a :: post → (∀ x ∈ pre, refused env x = true) →
          env.RunCmd ["ipfs", "swarm", "connect", a] = .ok o → o.ExitCode = 0 →
          Connect env = (none, pre ++ [a]))
      ∧ ((∀ x ∈ addrs, refused env x = true) →
          Connect env = (some "Could not connect using any address", addrs))
      ∧ (∀ pre a post e, addrs = pre ++ a :: post → (∀ x ∈ pre, refused env x = true) →
          env.RunCmd ["ipfs", "swarm", "connect", a] = .error e →
          Connect env = (some e, pre ++ [a])) := by
  have hc : Connect env = connectLoop env addrs := by
    simp only [Connect, h]
  refine ⟨?_, ?_, ?_, ?_⟩
  · rw [hc]
    exact connectLoop_tried env addrs
  · intro pre a post o hsplit hpre hrun hzero
    rw [hc, hsplit, connectLoop_refused env pre _ hpre, connectLoop, hrun]
    simp only [hzero, if_true]
  · intro hall
    have := connectLoop_refused env addrs [] hall
    rw [List.append_nil] at this
    rw [hc, this]
    simp [connectLoop]
  · intro pre a post e hsplit hpre hrun
    rw [hc, hsplit, connectLoop_refused env pre _ hpre, connectLoop, hrun]

/-- C9 witness: for addresses `[A, B]` where the attempt on `A` exits non-zero
and the attempt on `B` exits 0, `Connect` returns no error after trying both. -/
theorem Connect_first_success_witness : Connect secondAccepts = (none, ["A", "B"]) :=
  (Connect_first_success secondAccepts ["A", "B"] rfl).2.1 ["A"] "B" [] (exitWith 0) rfl
    (by decide) (by decide) (by decide)

/-- C9 counterexample: no address yields exit code 0, yet the error returned is
not "Could not connect using any address" but the failure of `RunCmd`. -/
theorem Connect_first_success_counterexample :
    cannotRun.SwarmAddrs = .ok ["A"]
      ∧ (∀ a o, cannotRun.RunCmd ["ipfs", "swarm", "connect", a] ≠ .ok o)
      ∧ Connect cannotRun
          = (some "exec: \"ipfs\": executable file not found in $PATH", ["A"])
      ∧ (Connect cannotRun).1 ≠ some "Could not connect using any address" := by
  refine ⟨rfl, ?_, by decide, by decide⟩
  intro a o h
  exact Except.noConfusion h

/-! ## Claims about the dispatcher -/

theorem validRangeMax_ge (list : List Int) : ∀ m : Int, m ≤ validRangeMax list m := by
  induction list with
  | nil => intro m; exact le_refl m
  | cons n ns ih =>
    intro m
    rw [validRangeMax]
    by_cases hc : m < n
    · rw [if_pos hc]
      have := ih n
      omega
    · rw [if_neg hc]
      exact ih m

theorem validRangeMax_mem_le (list : List Int) :
    ∀ (m n : Int), n ∈ list → n ≤ validRangeMax list m := by
  induction list with
  | nil => intro m n h; exact absurd h (List.not_mem_nil _)
  | cons x xs ih =>
    intro m n h
    rw [validRangeMax]
    rcases List.mem_cons.mp h with h | h
    · rw [h]
      by_cases hc : m < x
      · rw [if_pos hc]
        exact validRangeMax_ge xs x
      · rw [if_neg hc]
        have := validRangeMax_ge xs m
        omega
    · exact ih _ n h

theorem validRangeMax_eq_or_mem (list : List Int) :
    ∀ m : Int, validRangeMax list m = m ∨ validRangeMax list m ∈ list := by
  induction list with
  | nil => intro m; left; rfl
  | cons x xs ih =>
    intro m
    rw [validRangeMax]
    by_cases hx : m < x
    · rw [if_pos hx]
      rcases ih x with h | h
      · right; rw [h]; exact List.mem_cons_self _ _
      · right; exact List.mem_cons_of_mem _ h
    · rw [if_neg hx]
      rcases ih m with h | h
      · left; exact h
      · right; exact List.mem_cons_of_mem _ h

/-- The check of `validRange` in closed form: an error exactly when the largest
of 0 and the indices reaches `total`. -/
theorem validRange_eq_none_iff (list : List Int) (total : Int) :
    validRange list total = none ↔ 0 < total ∧ ∀ n ∈ list, n < total := by
  unfold validRange
  simp only
  constructor
  · intro h
    by_cases hc : validRangeMax list 0 ≥ total
    · rw [if_pos hc] at h
      exact Option.noConfusion h
    · refine ⟨?_, ?_⟩
      · have := validRangeMax_ge list 0
        omega
      · intro n hn
        have := validRangeMax_mem_le list 0 n hn
        omega
  · rintro ⟨h0, hall⟩
    have hc : ¬ (validRangeMax list 0 ≥ total) := by
      rcases validRangeMax_eq_or_mem list 0 with h | h
      · omega
      · have := hall _ h
        omega
    rw [if_neg hc]

theorem spawn_spec {Core : Type} (nodes : List Core) :
    ∀ (list : List Int) (i0 : Nat), (∀ n ∈ list, 0 ≤ n ∧ n < nodes.length) →
      ∃ units, spawn nodes list i0 = some units ∧ units.length = list.length ∧
        ∀ (j : Nat) (hj : j < list.length), ∃ node,
          index nodes (list.get ⟨j, hj⟩) = some node ∧
          units.get? j = some { i := i0 + j, n := list.get ⟨j, hj⟩, node := node } := by
  intro list
  induction list with
  | nil =>
    intro i0 _
    exact ⟨[], rfl, rfl, fun j hj => absurd hj (Nat.not_lt_zero _)⟩
  | cons n ns ih =>
    intro i0 hv
    obtain ⟨h0, hlt⟩ := hv n (List.mem_cons_self _ _)
    have hidx : n.toNat < nodes.length := by omega
    obtain ⟨units, hu, hlen, hget⟩ := ih (i0 + 1) (fun x hx => hv x (List.mem_cons_of_mem _ hx))
    have hnode : index nodes n = some (nodes.get ⟨n.toNat, hidx⟩) := by
      simp only [index, h0, if_true]
      exact List.get?_eq_get hidx
    refine ⟨{ i := i0, n := n, node := nodes.get ⟨n.toNat, hidx⟩ } :: units, ?_, ?_, ?_⟩
    · rw [spawn, hnode]
      simp only [hu]
    · simp [hlen]
    · intro j hj
      cases j with
      | zero => exact ⟨_, hnode, rfl⟩
      | succ k =>
        have hk : k < ns.length := by simpa using hj
        obtain ⟨node, h1, h2⟩ := hget k hk
        refine ⟨node, h1, ?_⟩
        have e : i0 + (k + 1) = i0 + 1 + k := by omega
        simpa [e] using h2

/-- After the goroutines of a schedule have run, slot `i` holds the result of
goroutine `i` if it was scheduled, and its former content otherwise: the order
of the schedule does not matter. -/
theorem runSchedule_results {Core : Type} (fn : outputFunc Core) (units : List (Goroutine Core))
    (hpos : ∀ j u, units.get? j = some u → u.i = j) :
    ∀ (sched : List Nat) (st : List Result × List Core),
      (runSchedule fn units sched st).1.length = st.1.length ∧
      ∀ i, i < st.1.length →
        (runSchedule fn units sched st).1.get? i =
          if i ∈ sched ∧ i < units.length then (units.get? i).map (unitResult fn)
          else st.1.get? i := by
  intro sched
  induction sched with
  | nil =>
    intro st
    exact ⟨rfl, fun i _ => by simp [runSchedule]⟩
  | cons p ps ih =>
    intro st
    cases hu : units.get? p with
    | none =>
      have hp : units.length ≤ p := by
        by_contra hc
        rw [List.get?_eq_get (by omega)] at hu
        exact Option.noConfusion hu
      obtain ⟨h1, h2⟩ := ih st
      simp only [runSchedule, hu]
      refine ⟨h1, fun i hi => ?_⟩
      rw [h2 i hi]
      by_cases hil : i < units.length
      · have hne : i ≠ p := by omega
        simp [hil, hne]
      · simp [hil]
    | some u =>
      have hp : p < units.length := by
        by_contra hc
        rw [List.get?_eq_none.mpr (by omega)] at hu
        exact Option.noConfusion hu
      have hui : u.i = p := hpos p u hu
      obtain ⟨h1, h2⟩ := ih (runUnit fn st u)
      have hlen : (runUnit fn st u).1.length = st.1.length := by
        simp [runUnit]
      simp only [runSchedule, hu]
      refine ⟨by rw [h1, hlen], fun i hi => ?_⟩
      rw [h2 i (by rw [hlen]; exact hi)]
      by_cases hips : i ∈ ps ∧ i < units.length
      · have : i ∈ p :: ps ∧ i < units.length := ⟨List.mem_cons_of_mem _ hips.1, hips.2⟩
        rw [if_pos hips, if_pos this]
      · rw [if_neg hips]
        by_cases hip : i = p
        · have : i ∈ p :: ps ∧ i < units.length := ⟨by simp [hip], by omega⟩
          rw [if_pos this, hip, hu]
          simp only [runUnit, hui, Option.map_some']
          rw [List.get?_eq_getElem?, List.getElem?_set_self (by omega)]
          rfl
        · have : ¬ (i ∈ p :: ps ∧ i < units.length) := by
            rintro ⟨hm, hl⟩
            rcases List.mem_cons.mp hm with h | h
            · exact hip h
            · exact hips ⟨h, hl⟩
          rw [if_neg this]
          simp only [runUnit, hui]
          rw [List.get?_eq_getElem?, List.get?_eq_getElem?,
            List.getElem?_set_ne (fun e => hip e.symm)]

theorem Wrapf_eq_none_iff (err : Option String) (n : Int) : Wrapf err n = none ↔ err = none := by
  cases err <;> simp [Wrapf]

/-- C1: for a valid selection (every index within `0 ≤ i < len(nodes)`), any
operation and any order in which the goroutines run, `mapWithOutput` returns a
result list of the length of the selection whose position `i` holds the node
index `S[i]`, the output `fn` gave for `nodes[S[i]]`, and an error that is nil
exactly when `fn` gave no error for that node; the order of the selection,
duplicates included, is kept. -/
theorem mapWithOutput_results {Core : Type} (list : List Int) (nodes : List Core)
    (fn : outputFunc Core) (sched : List Nat)
    (hvalid : ∀ n ∈ list, 0 ≤ n ∧ n < (nodes.length : Int))
    (hsched : sched.Perm (List.range list.length)) :
    ∃ r, mapWithOutput list nodes fn sched = some r ∧ r.results.length = list.length ∧
      ∀ (i : Nat) (hi : i < list.length), ∃ node,
        index nodes (list.get ⟨i, hi⟩) = some node ∧
        r.results.get? i = some { Node := list.get ⟨i, hi⟩
                                  Output := (fn node).1
                                  Error := Wrapf (fn node).2 (list.get ⟨i, hi⟩) } ∧
        (Wrapf (fn node).2 (list.get ⟨i, hi⟩) = none ↔ (fn node).2 = none) := by
  cases hv : validRange list nodes.length with
  | some err =>
    have hempty : list.length = 0 := by
      by_contra hne
      have hpos : 0 < list.length := Nat.pos_of_ne_zero hne
      have hmem := hvalid (list.get ⟨0, hpos⟩) (List.get_mem _ _ _)
      have : validRange list nodes.length = none :=
        (validRange_eq_none_iff list nodes.length).mpr
          ⟨by omega, fun n hn => (hvalid n hn).2⟩
      rw [this] at hv
      exact Option.noConfusion hv
    refine ⟨{ results := List.replicate list.length Result.zero, err := some err, calls := [] },
      ?_, by simp, ?_⟩
    · simp only [mapWithOutput, hv]
    · intro i hi
      omega
  | none =>
    obtain ⟨units, hspawn, hlen, hget⟩ := spawn_spec nodes list 0 hvalid
    have hpos : ∀ j u, units.get? j = some u → u.i = j := by
      intro j u hu
      have hj : j < list.length := by
        by_contra hc
        rw [List.get?_eq_none.mpr (by omega)] at hu
        exact Option.noConfusion hu
      obtain ⟨node, _, h2⟩ := hget j hj
      rw [h2] at hu
      rw [← Option.some.inj hu]
      simp
    obtain ⟨hl, hres⟩ := runSchedule_results fn units hpos sched
      (List.replicate list.length Result.zero, [])
    refine ⟨MapReturn.mk
      (runSchedule fn units sched (List.replicate list.length Result.zero, [])).1 none
      (runSchedule fn units sched (List.replicate list.length Result.zero, [])).2, ?_, ?_, ?_⟩
    · simp only [mapWithOutput, hv, hspawn]
    · simpa using hl
    · intro i hi
      obtain ⟨node, h1, h2⟩ := hget i hi
      refine ⟨node, h1, ?_, Wrapf_eq_none_iff _ _⟩
      have hmem : i ∈ sched ∧ i < units.length :=
        ⟨(hsched.mem_iff).mpr (List.mem_range.mpr hi), by omega⟩
      have := hres i (by simpa using hi)
      rw [if_pos hmem, h2] at this
      simpa [unitResult] using this

/-- C1 witness: the selection `[2,0,2]` against three nodes, with an operation
that fails on node 0 and the goroutines run in the order 2, 0, 1. -/
theorem mapWithOutput_results_witness :
    ∃ r, mapWithOutput [2, 0, 2] ["a", "b", "c"] failOnA [2, 0, 1] = some r ∧
      r.results.length = [(2 : Int), 0, 2].length ∧
      ∀ (i : Nat) (hi : i < [(2 : Int), 0, 2].length), ∃ node,
        index ["a", "b", "c"] ([(2 : Int), 0, 2].get ⟨i, hi⟩) = some node ∧
        r.results.get? i = some { Node := [(2 : Int), 0, 2].get ⟨i, hi⟩
                                  Output := (failOnA node).1
                                  Error := Wrapf (failOnA node).2 ([(2 : Int), 0, 2].get ⟨i, hi⟩) } ∧
        (Wrapf (failOnA node).2 ([(2 : Int), 0, 2].get ⟨i, hi⟩) = none ↔ (failOnA node).2 = none) :=
  mapWithOutput_results [2, 0, 2] ["a", "b", "c"] failOnA [2, 0, 1] (by decide) (by decide)

/-- C2: when the selection contains an index `≥ len(nodes)`, `mapWithOutput`
returns the non-nil error of `validRange` and `fn` is invoked on no node. -/
theorem mapWithOutput_out_of_range {Core : Type} (list : List Int) (nodes : List Core)
    (fn : outputFunc Core) (sched : List Nat)
    (h : ∃ n ∈ list, (nodes.length : Int) ≤ n) :
    ∃ r, mapWithOutput list nodes fn sched = some r ∧ r.err = validRange list nodes.length ∧
      r.err ≠ none ∧ r.calls = [] := by
  obtain ⟨n, hn, hge⟩ := h
  cases hv : validRange list nodes.length with
  | none =>
    have := ((validRange_eq_none_iff list nodes.length).mp hv).2 n hn
    omega
  | some err =>
    refine ⟨{ results := List.replicate list.length Result.zero, err := some err, calls := [] },
      ?_, rfl, by simp, rfl⟩
    simp only [mapWithOutput, hv]

/-- C2 witness: index 3 against three nodes. -/
theorem mapWithOutput_out_of_range_witness :
    ∃ r, mapWithOutput [0, 3] ["a", "b", "c"] failOnA [1, 0] = some r ∧
      r.err = validRange [0, 3] (["a", "b", "c"].length : Nat) ∧ r.err ≠ none ∧ r.calls = [] :=
  mapWithOutput_out_of_range [0, 3] ["a", "b", "c"] failOnA [1, 0] ⟨3, by decide, by decide⟩

/-- C3 (the code at the failing inputs): `validRange` accepts the selection
`[-1]` against one node, which `parseRange("-1")` produces, and `mapWithOutput`
then panics on `nodes[-1]`; and it rejects the empty selection against an empty
registry, although no index is out of range. -/
theorem validRange_misses_cases :
    validRange [-1] 1 = none
      ∧ (∀ fuel, parseRange fuel "-1".toList = some (.ok [-1]))
      ∧ (∀ (fn : outputFunc String) (sched : List Nat),
          (mapWithOutput [-1] ["a"] fn sched).isNone = true)
      ∧ validRange [] 0
          = some "Node range contains value (0) outside of valid range [0--1]" := by
  refine ⟨by decide, parseRange_of_zero _ _ (by decide), ?_, by decide⟩
  intro fn sched
  rfl

/-! ## The ascending range that ends at `maxInt` -/

theorem wrapInt_bounds (x : Int) : minInt ≤ wrapInt x ∧ wrapInt x ≤ maxInt := by
  unfold wrapInt minInt maxInt
  norm_num
  omega

/-- The expansion loop never ends when `hi` is `maxInt`: `i <= hi` holds for
every 64-bit `i`, and `i++` wraps around. -/
theorem expandLoop_maxInt (fuel : Nat) :
    ∀ (i : Int) (out : List Int), i ≤ maxInt → expandLoop fuel i maxInt out = none := by
  induction fuel with
  | zero => intro i out _; rfl
  | succ f ih =>
    intro i out hi
    rw [expandLoop, if_pos hi]
    exact ih _ _ (wrapInt_bounds _).2

end Iptb
